import Mathlib

/-!
Verification of the crypto feature-engineering pipeline.

This file gives a shallow embedding of the pandas-based feature pipeline
(`a1_load_crypto_prices.py`, `a2_load_crypto_news.py`,
`a3_data_engineering.py`) and proves or refutes the frozen claims about it.

Modelling conventions:
* pandas float columns are embedded as `FV`: an exact rational, a signed
  infinity, or `nan` (the missing-value marker).  Arithmetic on `FV`
  mirrors IEEE semantics (NaN propagates, x/0 gives a signed infinity,
  0/0 gives NaN, NaN == NaN is false).
* grouped (`groupby('coin')`) transforms apply a per-group pass to each
  coin's rows independently; per-coin operations are embedded as functions
  on the single coin's column lists, in row (time-sorted) order.
* row indices are 0-based positions in the time-sorted frame.
-/

set_option maxRecDepth 4000

namespace Crypto

/-- Model of a pandas float cell: NaN, +inf, -inf, or an exact rational. -/
inductive FV where
  | nan : FV
  | inf : FV
  | ninf : FV
  | num : ℚ → FV
deriving DecidableEq, Repr

namespace FV

/-- IEEE-style negation. -/
def neg : FV → FV
  | nan => nan
  | inf => ninf
  | ninf => inf
  | num a => num (-a)

/-- IEEE-style addition: NaN propagates, inf + (-inf) = NaN. -/
def add : FV → FV → FV
  | nan, _ => nan
  | _, nan => nan
  | inf, ninf => nan
  | ninf, inf => nan
  | inf, _ => inf
  | _, inf => inf
  | ninf, _ => ninf
  | _, ninf => ninf
  | num a, num b => num (a + b)

/-- IEEE-style subtraction: NaN propagates, inf - inf = NaN. -/
def sub : FV → FV → FV
  | nan, _ => nan
  | _, nan => nan
  | inf, inf => nan
  | ninf, ninf => nan
  | inf, _ => inf
  | _, inf => ninf
  | ninf, _ => ninf
  | _, ninf => inf
  | num a, num b => num (a - b)

/-- IEEE-style multiplication: NaN propagates, inf * 0 = NaN. -/
def mul : FV → FV → FV
  | nan, _ => nan
  | _, nan => nan
  | inf, inf => inf
  | inf, ninf => ninf
  | ninf, inf => ninf
  | ninf, ninf => inf
  | inf, num b => if 0 < b then inf else if b < 0 then ninf else nan
  | num a, inf => if 0 < a then inf else if a < 0 then ninf else nan
  | ninf, num b => if 0 < b then ninf else if b < 0 then inf else nan
  | num a, ninf => if 0 < a then ninf else if a < 0 then inf else nan
  | num a, num b => num (a * b)

/-- IEEE-style division: NaN propagates, inf/inf = NaN, x/0 is a signed
infinity for x nonzero and NaN for x = 0 (numpy float semantics, with the
zero denominator read as +0). -/
def div : FV → FV → FV
  | nan, _ => nan
  | _, nan => nan
  | inf, inf => nan
  | inf, ninf => nan
  | ninf, inf => nan
  | ninf, ninf => nan
  | inf, num b => if 0 ≤ b then inf else ninf
  | ninf, num b => if 0 ≤ b then ninf else inf
  | num _, inf => num 0
  | num _, ninf => num 0
  | num a, num b =>
      if b = 0 then (if a = 0 then nan else if 0 < a then inf else ninf)
      else num (a / b)

/-- Float equality test (`==` in pandas): NaN compares unequal to
everything, including itself. -/
def beq : FV → FV → Bool
  | num a, num b => a == b
  | inf, inf => true
  | ninf, ninf => true
  | _, _ => false

/-- Total comparison used for sorting, with NaN placed last
(pandas `sort_values` default `na_position='last'`). -/
def le : FV → FV → Bool
  | ninf, _ => true
  | _, nan => true
  | nan, _ => false
  | num a, num b => a ≤ b
  | num _, inf => true
  | num _, ninf => false
  | inf, inf => true
  | inf, _ => false

/-- Test for the missing-value marker. -/
def isNan : FV → Bool
  | nan => true
  | _ => false

/-- Maximum of two non-NaN float values (used inside full, all-observed
rolling windows only). -/
def fmax (x y : FV) : FV := if le x y then y else x

/-- Minimum of two non-NaN float values (used inside full, all-observed
rolling windows only). -/
def fmin (x y : FV) : FV := if le x y then x else y

end FV

/-- Stable insertion of one element into a sorted list. -/
def insertIS {α : Type} (le : α → α → Bool) (a : α) : List α → List α
  | [] => [a]
  | b :: t => if le a b then a :: b :: t else b :: insertIS le a t

/-- Stable insertion sort (structural recursion, so that concrete frames
evaluate inside the kernel).  Models `sort_values` on a key. -/
def insertionSortBy {α : Type} (le : α → α → Bool) : List α → List α
  | [] => []
  | a :: t => insertIS le a (insertionSortBy le t)

/-- Duplicate removal keeping the first occurrence of each element
(pandas `drop_duplicates` / `Series.unique` order). -/
def uniqueFirst {α : Type} [DecidableEq α] : List α → List α
  | [] => []
  | a :: t => a :: uniqueFirst (t.filter (fun x => x ≠ a))
termination_by l => l.length
decreasing_by
  exact Nat.lt_succ_of_le (List.length_filter_le _ _)

/-! ## Resampler/Aggregator (`a1_load_crypto_prices.basic_prep_ohlcv_df`)

One `(coin, bucket)` group of raw candles.  The source multiplies each of
open/high/low/close by volume, sums within the group, divides by the
summed volume, sets `price` to the row-wise mean of the weighted open and
close, and `volume_usd` to `volume * price`. -/

/-- Raw candle of one group member (`open` is a Lean keyword, spelled
`opn`). -/
structure Candle where
  opn : ℚ
  high : ℚ
  low : ℚ
  close : ℚ
  volume : ℚ
deriving DecidableEq, Repr

/-- Aggregated output row of `basic_prep_ohlcv_df` for one group. -/
structure AggBar where
  opn : ℚ
  high : ℚ
  low : ℚ
  close : ℚ
  volume : ℚ
  price : ℚ
  volume_usd : ℚ
deriving DecidableEq, Repr

/-- Summed volume of a group. -/
def totalVolume (g : List Candle) : ℚ := (g.map (·.volume)).sum

/-- Volume-weighted average of a candle field over a group:
sum of field*volume divided by summed volume. -/
def vwavg (f : Candle → ℚ) (g : List Candle) : ℚ :=
  ((g.map (fun x => f x * x.volume)).sum) / totalVolume g

/-- Embedding of `basic_prep_ohlcv_df` restricted to one
`(coin, bucket)` group: volume-weight open/high/low/close, sum, divide by
summed volume, then `price` = mean of weighted open and close and
`volume_usd` = volume * price (source lines 65-86). -/
def basic_prep_ohlcv_df (g : List Candle) : AggBar :=
  let vol := (g.map (·.volume)).sum
  let o := ((g.map (fun x => x.opn * x.volume)).sum) / vol
  let hi := ((g.map (fun x => x.high * x.volume)).sum) / vol
  let lo := ((g.map (fun x => x.low * x.volume)).sum) / vol
  let c := ((g.map (fun x => x.close * x.volume)).sum) / vol
  let price := (o + c) / 2
  { opn := o, high := hi, low := lo, close := c, volume := vol,
    price := price, volume_usd := vol * price }

/-! ## Momentum Calculator (`a3_data_engineering.calculate_momentum`) -/

/-- One pairwise fractional change `(a - b) / b`, as computed row-wise for
`momentum_1_2`, `momentum_2_3`, `momentum_3_4`. -/
def fsubdiv (a b : FV) : FV := FV.div (FV.sub a b) b

/-- Row-wise sum as pandas `DataFrame.sum(axis=1)` computes it: NaN cells
are skipped (`skipna=True`), and an all-NaN row sums to 0. -/
def row_sum (l : List FV) : FV :=
  (l.filter (fun v => !FV.isNan v)).foldl FV.add (FV.num 0)

/-- Embedding of `calculate_momentum` for one row: three adjacent
fractional changes summed with `sum(axis=1)` (source lines 78-88). -/
def calculate_momentum (p1 p2 p3 p4 : FV) : FV :=
  row_sum [fsubdiv p1 p2, fsubdiv p2 p3, fsubdiv p3 p4]

/-- Replace NaN by 0 and keep every other value (the claim's reading of
"NaN treated as 0"). -/
def nanToZero : FV → FV
  | FV.nan => FV.num 0
  | v => v

/-! ## Level Clustering Engine (`a3_data_engineering.aggregate_support_levels`) -/

/-- Cluster-id pass over the prices of one coin's flagged extrema, already
sorted ascending: start with ids 1..n, then for each adjacent pair merge
row i+1 into row i's current cluster id when the relative gap
`|p[i] - p[i+1]| / p[i]` is at most the threshold (source lines 64-70). -/
def clusterIds (thres : ℚ) (ps : List ℚ) : List ℕ :=
  (List.range (ps.length - 1)).foldl
    (fun ids i =>
      let vi := ps.getD i 0
      let vi2 := ps.getD (i + 1) 0
      if |vi - vi2| / vi ≤ thres then ids.set (i + 1) (ids.getD i 0) else ids)
    ((List.range ps.length).map (· + 1))

/-- Median of a list of rationals as pandas computes it: sort, take the
middle element, or the mean of the two middle elements for even length. -/
def medianQ (l : List ℚ) : ℚ :=
  let s := insertionSortBy (fun a b => a ≤ b) l
  let n := s.length
  if n % 2 = 1 then s.getD (n / 2) 0
  else (s.getD (n / 2 - 1) 0 + s.getD (n / 2) 0) / 2

/-- Input row of `aggregate_support_levels`: day, coin, price and the two
extrema flags.  `id` models the pandas row index (and stands for all the
other feature columns carried through the merge unchanged). -/
structure LRow where
  id : ℕ
  day : ℕ
  coin : String
  price : ℚ
  lmin : ℕ
  lmax : ℕ
deriving DecidableEq, Repr, Inhabited

/-- Cluster row produced for one flagged extremum: its day and coin, the
cluster id within the coin, the cluster's median price, and its member
count (the columns kept in `df_cluster`, source line 74). -/
structure CRow where
  day : ℕ
  coin : String
  level : ℕ
  price_level : ℚ
  counter_level : ℕ
deriving DecidableEq, Repr

/-- Output row of `aggregate_support_levels`: the original row (by id)
with the three level columns from the left merge, null when the row's
(day, coin) matched no cluster row. -/
structure ORow where
  id : ℕ
  day : ℕ
  coin : String
  price : ℚ
  level : Option ℕ
  price_level : Option ℚ
  counter_level : Option ℕ
deriving DecidableEq, Repr

/-- Embedding of `aggregate_support_levels` (source lines 51-76): filter
the rows flagged as local min or max, then per coin sort them by price,
run the cluster-id pass, attach each cluster's median price and member
count, concatenate, and finally left-merge the cluster rows back onto the
full frame on (day, coin). -/
def aggregate_support_levels (df : List LRow) (thres : ℚ) : List ORow :=
  let locals := df.filter (fun r => decide (r.lmin = 1 ∨ r.lmax = 1))
  let coins := uniqueFirst (locals.map (·.coin))
  let clusterRows := coins.flatMap (fun g =>
    let dfg := locals.filter (fun r => r.coin == g)
    let sorted := insertionSortBy (fun a b => a.price ≤ b.price) dfg
    let ps := sorted.map (·.price)
    let ids := clusterIds thres ps
    (List.range sorted.length).map (fun i =>
      let lid := ids.getD i 0
      let members := ((ps.zip ids).filter (fun pr => pr.2 == lid)).map (·.1)
      CRow.mk (sorted.getD i default).day g lid (medianQ members) members.length))
  df.flatMap (fun r =>
    let ms := clusterRows.filter (fun c => c.day == r.day && c.coin == r.coin)
    if ms.isEmpty then [ORow.mk r.id r.day r.coin r.price none none none]
    else ms.map (fun c =>
      ORow.mk r.id r.day r.coin r.price (some c.level) (some c.price_level)
        (some c.counter_level)))

/-! ## Temporal Feature Generator (`a1_load_crypto_prices.prep_ohlcv_df`)

The price column of one coin, in time-sorted row order.  Prices may be
NaN (a bucket with zero total volume divides by zero upstream). -/

/-- Embedding of `Series.shift(-h)`: row i takes the value of row i + h,
and the last h rows become NaN. -/
def shiftNeg (h : ℕ) (xs : List FV) : List FV :=
  (List.range xs.length).map (fun i => xs.getD (i + h) FV.nan)

/-- Embedding of `Series.pct_change(periods=p, fill_method=None)`:
row i gets `(x[i] - x[i-p]) / x[i-p]`, NaN for the first p rows, with NaN
operands propagating. -/
def pct_change (p : ℕ) (xs : List FV) : List FV :=
  (List.range xs.length).map (fun i =>
    if i < p then FV.nan
    else FV.div (FV.sub (xs.getD i FV.nan) (xs.getD (i - p) FV.nan))
      (xs.getD (i - p) FV.nan))

/-- Embedding of the `future_change_{h}h` column (source line 106):
`df['price'].shift(-hours).pct_change(periods=hours, fill_method=None) * 100`. -/
def future_change (h : ℕ) (xs : List FV) : List FV :=
  (pct_change h (shiftNeg h xs)).map (fun v => FV.mul v (FV.num 100))

/-- Embedding of the `change_{h}h` column (source line 103):
`df['price'].pct_change(periods=hours) * 100`. -/
def change_col (h : ℕ) (xs : List FV) : List FV :=
  (pct_change h xs).map (fun v => FV.mul v (FV.num 100))

/-! ## Rolling volume statistics (source lines 108-112)

The volume column of one coin is a list of rationals: it is produced by a
groupby sum upstream, so it is never NaN. -/

/-- Trailing window of width w ending at row i: rows i+1-w .. i. -/
def windowAt (w i : ℕ) (xs : List ℚ) : List ℚ :=
  (xs.take (i + 1)).drop (i + 1 - w)

/-- Embedding of `Series.rolling(w).mean()` (default `min_periods = w`):
NaN for the first w-1 rows, then the mean of the trailing window. -/
def rollingMeanQ (w : ℕ) (xs : List ℚ) : List FV :=
  (List.range xs.length).map (fun i =>
    if i + 1 < w then FV.nan
    else FV.num ((windowAt w i xs).sum / (w : ℚ)))

/-- Sample variance (ddof = 1) of a window, the square of what
`Series.rolling(w).std()` computes on it. -/
def sampleVar (l : List ℚ) : ℚ :=
  let m := l.sum / (l.length : ℚ)
  ((l.map (fun x => (x - m) ^ 2)).sum) / ((l.length - 1 : ℕ) : ℚ)

/-- Exact model of a cell of the rolling-std and volatility columns.
These columns hold square roots of rationals, so a finite cell is encoded
as `root q`, denoting the real number sign(q) * sqrt |q|; `nan` and the
signed infinities are as in `FV`. -/
inductive RV where
  | nan : RV
  | inf : RV
  | ninf : RV
  | root : ℚ → RV
deriving DecidableEq, Repr

/-- Embedding of `Series.rolling(w).std()` (default `min_periods = w`,
ddof = 1): NaN for the first w-1 rows and for w < 2, else the square root
of the sample variance of the trailing window, encoded exactly. -/
def rollingStdQ (w : ℕ) (xs : List ℚ) : List RV :=
  (List.range xs.length).map (fun i =>
    if i + 1 < w ∨ w < 2 then RV.nan
    else RV.root (sampleVar (windowAt w i xs)))

/-- IEEE-style division of a square-root-valued cell by a float cell:
sign(v)√|v| / m = sign(v·m)·√(|v| / m²), encoded as `root (v·sign m/m²)`;
division by zero gives NaN for a zero numerator and a signed infinity
otherwise; NaN propagates. -/
def rdiv : RV → FV → RV
  | RV.nan, _ => RV.nan
  | _, FV.nan => RV.nan
  | RV.inf, FV.inf => RV.nan
  | RV.inf, FV.ninf => RV.nan
  | RV.ninf, FV.inf => RV.nan
  | RV.ninf, FV.ninf => RV.nan
  | RV.inf, FV.num b => if 0 ≤ b then RV.inf else RV.ninf
  | RV.ninf, FV.num b => if 0 ≤ b then RV.ninf else RV.inf
  | RV.root _, FV.inf => RV.root 0
  | RV.root _, FV.ninf => RV.root 0
  | RV.root v, FV.num m =>
      if m = 0 then (if v = 0 then RV.nan else if 0 < v then RV.inf else RV.ninf)
      else RV.root (v * (if 0 < m then 1 else -1) / (m * m))

/-- The `avg_volume_{h}h` column (source line 110). -/
def avg_volume (w : ℕ) (vols : List ℚ) : List FV := rollingMeanQ w vols

/-- The `volatility_volume_{h}h` column (source lines 111-112): the
rolling std divided elementwise by the rolling mean. -/
def volatility_volume (w : ℕ) (vols : List ℚ) : List RV :=
  (List.range vols.length).map (fun i =>
    rdiv ((rollingStdQ w vols).getD i RV.nan) ((rollingMeanQ w vols).getD i FV.nan))

/-! ## Extrema Detector (`a3_data_engineering.define_local_min_max{,2}`)

Per-coin slice: `groupby(col_group)[col].transform(rolling(...))` applies
the centered rolling aggregate to each coin's column independently. -/

/-- Embedding of a centered rolling aggregate with
`min_periods = w` (`rolling(window=w, min_periods=w, center=True)`):
at row i the window covers positions i + (w-1)/2 - (w-1) .. i + (w-1)/2;
the cell is the aggregate of the window's values when all w positions are
in bounds and observed (non-NaN), and NaN otherwise. -/
def rollCenteredAgg (agg : FV → FV → FV) (w : ℕ) (xs : List FV) : List FV :=
  let n := xs.length
  (List.range n).map (fun i =>
    let s := i + (w - 1) / 2 + 1
    let obs := (List.range w).filterMap (fun j =>
      if w ≤ s + j ∧ s + j - w < n then
        (fun v => if FV.isNan v then none else some v) (xs.getD (s + j - w) FV.nan)
      else none)
    if obs.length = w then
      match obs with
      | [] => FV.nan
      | a :: rest => rest.foldl agg a
    else FV.nan)

/-- Embedding of `define_local_min_max` (source lines 27-37) on one coin's
time-sorted columns.  `price` is the column passed as `col_price`; `avg5`
is the frame's `avg_price_5` column, which the source reads - hard-coded -
when building the rolling minimum (line 34).  Returns the
(`local_max`, `local_min`) flag columns, each cell 1 when the price cell
compares equal to the rolling aggregate cell and 0 otherwise. -/
def define_local_min_max (price avg5 : List FV) (w : ℕ) : List ℕ × List ℕ :=
  let colmax := rollCenteredAgg FV.fmax w price
  let lmax := (List.range price.length).map
    (fun i => if FV.beq (price.getD i FV.nan) (colmax.getD i FV.nan) then 1 else 0)
  let colmin := rollCenteredAgg FV.fmin w avg5
  let lmin := (List.range price.length).map
    (fun i => if FV.beq (price.getD i FV.nan) (colmin.getD i FV.nan) then 1 else 0)
  (lmax, lmin)

/-- Embedding of `define_local_min_max2` (source lines 39-49) on one
coin's time-sorted columns: `local_max` flags rows whose `high` equals
the centered rolling max of `high`; `local_min` flags rows whose `low`
equals the centered rolling min of `low`. -/
def define_local_min_max2 (low high : List FV) (w : ℕ) : List ℕ × List ℕ :=
  let colmax := rollCenteredAgg FV.fmax w high
  let lmax := (List.range high.length).map
    (fun i => if FV.beq (high.getD i FV.nan) (colmax.getD i FV.nan) then 1 else 0)
  let colmin := rollCenteredAgg FV.fmin w low
  let lmin := (List.range low.length).map
    (fun i => if FV.beq (low.getD i FV.nan) (colmin.getD i FV.nan) then 1 else 0)
  (lmax, lmin)

/-! ## News Feature Builder (`a2_load_crypto_news.py`)

Calendar days are embedded as natural numbers: the ISO date strings the
source compares and ranges over are order-isomorphic to day numbers.
Article sentiment is computed by an external text-polarity model, passed
in here as a function of the abstract text. -/

/-- One fetched article row after parsing: the publish hour is -1 when
the date string was unparseable. -/
structure Article where
  coin : String
  published_day : ℕ
  published_hour : ℤ
  title : String
  abstract : String
deriving DecidableEq, Repr

/-- Aggregated news row: one (coin, day, hour) key with its article count
and summed sentiment.  Produced by a groupby count/sum, so both values
are total (never NaN). -/
structure AggRow where
  coin : String
  day : ℕ
  hour : ℤ
  news_count : ℕ
  news_sentiment : ℚ
deriving DecidableEq, Repr

/-- Dense-grid row after the left merge in `enlarge_dataframe`:
count and sentiment are `none` for grid cells with no aggregated row. -/
structure GridRow where
  coin : String
  day : ℕ
  hour : ℤ
  news_count : Option ℕ
  news_sentiment : Option ℚ
deriving DecidableEq, Repr

/-- Lexicographic order on (coin, day, hour) keys, matching the sorted
group keys a default `groupby` emits. -/
def keyLe (a b : String × ℕ × ℤ) : Bool :=
  decide (a.1 < b.1 ∨ (a.1 = b.1 ∧ (a.2.1 < b.2.1 ∨ (a.2.1 = b.2.1 ∧ a.2.2 ≤ b.2.2))))

/-- Embedding of the aggregation steps of `prepare_crypto_news` (source
lines 140-150): filter rows with `published_hour > -1`, drop exact
duplicate rows, score each article's abstract with the external
sentiment model, group by (coin, day, hour) and take count and sum of the
abstract sentiment.  The source's subsequent `fillna(0)` on these two
columns is the identity here: a groupby count/sum over a nonempty group
is never NaN. -/
def news_aggregate (articles : List Article) (senti : String → ℚ) : List AggRow :=
  let kept := articles.filter (fun a => decide (-1 < a.published_hour))
  let deduped := uniqueFirst kept
  let withSent := deduped.map (fun a => (a, senti a.abstract))
  let keys := insertionSortBy keyLe
    (uniqueFirst (withSent.map (fun p => (p.1.coin, p.1.published_day, p.1.published_hour))))
  keys.map (fun k =>
    let grp := withSent.filter (fun p =>
      p.1.coin == k.1 && p.1.published_day == k.2.1 && p.1.published_hour == k.2.2)
    AggRow.mk k.1 k.2.1 k.2.2 grp.length ((grp.map (·.2)).sum))

/-- Embedding of `enlarge_dataframe` (source lines 100-117): build the
full grid of (coin in the frame) x (every day from the minimum to the
maximum day) x (hour 0..23), in product order, and left-merge the
aggregated rows onto it; unmatched cells keep null count and sentiment. -/
def enlarge_dataframe (agg : List AggRow) : List GridRow :=
  let days := agg.map (·.day)
  let minD := days.foldl min (days.headD 0)
  let maxD := days.foldl max (days.headD 0)
  let dateRange := (List.range (maxD + 1 - minD)).map (· + minD)
  let coins := uniqueFirst (agg.map (·.coin))
  coins.flatMap (fun c =>
    dateRange.flatMap (fun d =>
      (List.range 24).map (fun hh =>
        match agg.find? (fun a => a.coin == c && a.day == d && a.hour == (hh : ℤ)) with
        | some a => GridRow.mk c d (hh : ℤ) (some a.news_count) (some a.news_sentiment)
        | none => GridRow.mk c d (hh : ℤ) none none)))

/-- The news grid as it stands when the rolling sums start: the slice of
`prepare_crypto_news` from raw parsed articles through
`enlarge_dataframe` (source lines 140-152). -/
def news_grid (articles : List Article) (senti : String → ℚ) : List GridRow :=
  enlarge_dataframe (news_aggregate articles senti)

/-! ## Weighted Moving Average Engine (`a3_data_engineering.weighted_average`)

This function is claimed about its frame effects for arbitrary column
names, so here a frame is modelled generically: a list of rows, each row
an association list from column name to float cell. -/

/-- One frame row: column name to cell value, names unique in practice. -/
abbrev DRow : Type := List (String × FV)

/-- Generic frame: rows in order. -/
abbrev DF : Type := List DRow

/-- Value of a named column in a row - the first entry with that name -
`none` when the column is absent. -/
def rlookup (name : String) : DRow → Option FV
  | [] => none
  | p :: t => if p.1 = name then some p.2 else rlookup name t

/-- Column names of a row, in order. -/
def rkeys (r : DRow) : List String := r.map Prod.fst

/-- Value of a named column in a row, NaN when the column is absent. -/
def lookupD (name : String) (r : DRow) : FV := (rlookup name r).getD FV.nan

/-- Write a named cell in a row: replace the first entry with that name,
or append the column at the end when absent (pandas column assignment). -/
def rowSet (name : String) (v : FV) : DRow → DRow
  | [] => [(name, v)]
  | p :: t => if p.1 = name then (name, v) :: t else p :: rowSet name v t

/-- Remove every entry whose name is listed (pandas `drop(columns=...)`). -/
def rowDropAll (names : List String) (r : DRow) : DRow :=
  r.filter (fun p => decide (p.1 ∉ names))

/-- Column assignment `df[name] = vals` on a frame. -/
def setCol (df : DF) (name : String) (vals : List FV) : DF :=
  List.zipWith (fun r v => rowSet name v r) df vals

/-- Column read `df[name]` on a frame. -/
def getCol (df : DF) (name : String) : List FV := df.map (lookupD name)

/-- Dropping a list of columns from a frame. -/
def dropCols (df : DF) (names : List String) : DF := df.map (rowDropAll names)

/-- Embedding of `sort_values(by=key)`: sort rows by the key column, NaN
keys last; stable, so ties keep their input order. -/
def sortRows (df : DF) (key : String) : DF :=
  insertionSortBy (fun a b => FV.le (lookupD key a) (lookupD key b)) df

/-- Embedding of `Series.rolling(window=w, min_periods=1).sum()`:
at row i, sum of the observed (non-NaN) values among rows i+1-w .. i, NaN
when the window holds no observation. -/
def rolling_sum_min1 (w : ℕ) (xs : List FV) : List FV :=
  (List.range xs.length).map (fun i =>
    let win := (xs.take (i + 1)).drop (i + 1 - w)
    let obs := win.filter (fun v => !FV.isNan v)
    if obs.isEmpty then FV.nan else obs.foldl FV.add (FV.num 0))

/-- Embedding of `groupby(gcol)[vcol].transform(f)`: row i receives the
value of `f`, applied to its group's `vcol` column in row order, at the
row's position within its group. -/
def groupTransform (df : DF) (gcol vcol : String) (f : List FV → List FV) : List FV :=
  (List.range df.length).map (fun i =>
    let r := df.getD i []
    let g := lookupD gcol r
    let grp := df.filter (fun r2 => lookupD gcol r2 == g)
    let pos := ((df.take i).filter (fun r2 => lookupD gcol r2 == g)).length
    (f (grp.map (lookupD vcol))).getD pos FV.nan)

/-- The scratch columns `weighted_average` creates and drops. -/
def scratchCols : List String := ["weighted_price", "nominator", "denominator"]

/-- Embedding of `weighted_average` (source lines 13-25): build the
volume-weighted price scratch column, sort by the time key, compute the
per-coin rolling sums of weighted price and of volume, divide them into
the output column named `colname_new ++ toString window_length`, and drop
the three scratch columns. -/
def weighted_average (df : DF) (col_price colname_new : String) (window_length : ℕ)
    (col_group col_sort : String) : DF :=
  let df1 := setCol df "weighted_price"
    (List.zipWith FV.mul (getCol df col_price) (getCol df "volume"))
  let name := colname_new ++ toString window_length
  let df2 := sortRows df1 col_sort
  let df3 := setCol df2 "nominator"
    (groupTransform df2 col_group "weighted_price" (rolling_sum_min1 window_length))
  let df4 := setCol df3 "denominator"
    (groupTransform df3 col_group "volume" (rolling_sum_min1 window_length))
  let df5 := setCol df4 name
    (List.zipWith FV.div (getCol df4 "nominator") (getCol df4 "denominator"))
  dropCols df5 scratchCols

/-! ## Concrete example inputs used by the theorems below -/

/-- Two parsed articles for one coin on two consecutive days. -/
def exArts : List Article :=
  [⟨"Bitcoin", 1, 5, "t1", "a1"⟩, ⟨"Bitcoin", 2, 7, "t2", "a2"⟩]

/-- Extrema rows with prices 100, 101, 150 on distinct days. -/
def exdf4a : List LRow :=
  [⟨1, 1, "A", 100, 1, 0⟩, ⟨2, 2, "A", 101, 1, 0⟩, ⟨3, 3, "A", 150, 0, 1⟩]

/-- Extrema rows with chained prices 100, 102, 104 on distinct days. -/
def exdf4b : List LRow :=
  [⟨1, 1, "A", 100, 1, 0⟩, ⟨2, 2, "A", 102, 1, 0⟩, ⟨3, 3, "A", 104, 0, 1⟩]

/-- Two far-apart extrema sharing day 1, plus a day-2 row with no
extremum. -/
def exdf9 : List LRow :=
  [⟨1, 1, "A", 100, 1, 0⟩, ⟨2, 1, "A", 150, 0, 1⟩, ⟨3, 2, "A", 120, 0, 0⟩]

/-- One aggregation group of two raw candles with positive volumes. -/
def exG : List Candle :=
  [⟨10, 12, 9, 11, 2⟩, ⟨11, 13, 10, 12, 3⟩]

/-- Small two-row frame with the columns the weighted-average engine
reads. -/
def exdf8 : DF :=
  [[("coin", FV.num 1), ("timestamp", FV.num 1), ("price", FV.num 10), ("volume", FV.num 2)],
   [("coin", FV.num 1), ("timestamp", FV.num 2), ("price", FV.num 11), ("volume", FV.num 3)]]

/-- Column names of `exdf8`. -/
def excols8 : List String := ["coin", "timestamp", "price", "volume"]

/-! ## Helper lemmas -/

theorem insertIS_perm {α : Type} (le : α → α → Bool) (a : α) (l : List α) :
    (insertIS le a l).Perm (a :: l) := by
  induction l with
  | nil => simp [insertIS]
  | cons b t ih =>
    simp only [insertIS]
    split
    · exact List.Perm.refl _
    · exact ((ih.cons b).trans (List.Perm.swap a b t))

theorem insertionSortBy_perm {α : Type} (le : α → α → Bool) (l : List α) :
    (insertionSortBy le l).Perm l := by
  induction l with
  | nil => simp [insertionSortBy]
  | cons a t ih => exact (insertIS_perm le a _).trans (ih.cons a)

theorem getD_range_map {α : Type} (f : ℕ → α) (n i : ℕ) (d : α) (hi : i < n) :
    (((List.range n).map f).getD i d) = f i := by
  rw [List.getD_eq_getElem?_getD, List.getElem?_map, List.getElem?_range hi]
  rfl

theorem getD_map_lt {α β : Type} (f : α → β) (l : List α) (i : ℕ) (d : β) (d' : α)
    (hi : i < l.length) :
    (l.map f).getD i d = f (l.getD i d') := by
  rw [List.getD_eq_getElem?_getD, List.getElem?_map, List.getElem?_eq_getElem hi,
    List.getD_eq_getElem?_getD, List.getElem?_eq_getElem hi]
  rfl

theorem row_sum_three (m1 m2 m3 : FV) :
    row_sum [m1, m2, m3] =
      FV.add (FV.add (nanToZero m1) (nanToZero m2)) (nanToZero m3) := by
  cases m1 <;> cases m2 <;> cases m3 <;>
    simp [row_sum, nanToZero, FV.add, FV.isNan, List.filter, List.foldl]

/-! ## Claims -/

set_option maxHeartbeats 1000000 in
/-- C1: in the single-price-column extrema detector the claim reads
`local_min = 1` iff the row's value in the given price column equals the
centered rolling minimum of that same column.  The code instead builds
the rolling minimum from the hard-coded `avg_price_5` column: on a frame
whose price column is `[2, 1, 2]` and whose `avg_price_5` column is
`[10, 10, 10]`, with window 3, row 1's price equals the centered rolling
minimum of the price column, yet the code flags `local_min = 0`. -/
theorem define_local_min_max_uses_avg5 :
    (define_local_min_max [FV.num 2, FV.num 1, FV.num 2]
      [FV.num 10, FV.num 10, FV.num 10] 3).2.getD 1 9 = 0 ∧
    ([FV.num 2, FV.num 1, FV.num 2] : List FV).getD 1 FV.nan = FV.num 1 ∧
    (rollCenteredAgg FV.fmin 3 [FV.num 2, FV.num 1, FV.num 2]).getD 1 FV.nan
      = FV.num 1 := by
  refine ⟨?_, rfl, ?_⟩
  · norm_num [define_local_min_max, rollCenteredAgg, List.range_succ, FV.fmin, FV.le,
      FV.beq, FV.isNan, List.filterMap_cons]
  · norm_num [rollCenteredAgg, List.range_succ, FV.fmin, FV.le, FV.isNan,
      List.filterMap_cons]

set_option maxHeartbeats 2000000 in
/-- C2: for two articles of one coin on days 1 and 2, the grid after
`enlarge_dataframe` has 1 x 2 x 24 rows as claimed, but the cell
(Bitcoin, day 1, hour 0), where no article existed, carries null count
and sentiment - not 0 - when the rolling sums start: the source's
`fillna(0)` runs on the pre-grid aggregate (where it is a no-op), not on
the merged grid. -/
theorem news_grid_unmatched_cells_null :
    (news_grid exArts (fun _ => 1)).length = 1 * 2 * 24 ∧
    (news_grid exArts (fun _ => 1)).find?
        (fun g => g.coin == "Bitcoin" && g.day == 1 && g.hour == 0)
      = some (GridRow.mk "Bitcoin" 1 0 none none) := by
  constructor <;>
    norm_num [news_grid, news_aggregate, enlarge_dataframe, exArts, uniqueFirst,
      insertionSortBy, insertIS, keyLe, List.range_succ]

/-- C3 counterexample: on the all-defined price series [1, 2, 3, 4, 5]
with horizon 3, rows 0 and 3 both have defined prices, yet
`future_change_3h` at row 0 is NaN rather than the claimed
`(price[3] - price[0]) / price[0] * 100 = 300`: `pct_change(periods=3)`
leaves the first 3 rows NaN even after the forward shift. -/
theorem future_change_claim_gap :
    (([FV.num 1, FV.num 2, FV.num 3, FV.num 4, FV.num 5] : List FV).getD 0 FV.nan
      = FV.num 1) ∧
    (([FV.num 1, FV.num 2, FV.num 3, FV.num 4, FV.num 5] : List FV).getD 3 FV.nan
      = FV.num 4) ∧
    (future_change 3 [FV.num 1, FV.num 2, FV.num 3, FV.num 4, FV.num 5]).getD 0 FV.nan
      = FV.nan ∧
    FV.nan ≠ FV.num ((4 - 1) / 1 * 100) := by
  refine ⟨rfl, rfl, ?_, by simp⟩
  norm_num [future_change, pct_change, shiftNeg, List.range_succ, FV.div, FV.sub, FV.mul]

/-- C3 amended: for every coin, horizon h and row t with h ≤ t, row t + h
in range, and both prices defined (and the base price nonzero), the
`future_change_h` value at row t is the forward percent change
`(price[t+h] - price[t]) / price[t] * 100`; rows t < h are NaN instead
(see the counterexample). -/
theorem future_change_formula (xs : List FV) (h t : ℕ) (a b : ℚ)
    (hht : h ≤ t) (hlen : t + h < xs.length)
    (ha : xs.getD t FV.nan = FV.num a) (hb : xs.getD (t + h) FV.nan = FV.num b)
    (ha0 : a ≠ 0) :
    (future_change h xs).getD t FV.nan = FV.num ((b - a) / a * 100) := by
  have ht : t < xs.length := lt_of_le_of_lt (Nat.le_add_right t h) hlen
  have hth : t - h < xs.length := lt_of_le_of_lt (Nat.sub_le t h) ht
  have hs : (shiftNeg h xs).length = xs.length := by simp [shiftNeg]
  have hp : (pct_change h (shiftNeg h xs)).length = xs.length := by
    simp [pct_change, hs]
  rw [future_change, getD_map_lt _ _ t FV.nan FV.nan (by rw [hp]; exact ht)]
  rw [pct_change, hs, getD_range_map _ _ t _ ht, if_neg (Nat.not_lt.mpr hht)]
  rw [shiftNeg, getD_range_map _ _ t _ ht, getD_range_map _ _ (t - h) _ hth,
    Nat.sub_add_cancel hht, ha, hb]
  rw [FV.sub, FV.div, if_neg ha0, FV.mul]

/-- C3 witness: on the series [1, 1, 1, 2, 1, 1, 8] with h = 3 and t = 3,
the forward change is (8 - 2) / 2 * 100. -/
theorem future_change_formula_witness :
    (3:ℕ) ≤ 3 ∧ 3 + 3 < 7 ∧
    (future_change 3 [FV.num 1, FV.num 1, FV.num 1, FV.num 2, FV.num 1, FV.num 1,
      FV.num 8]).getD 3 FV.nan = FV.num ((8 - 2) / 2 * 100) :=
  ⟨le_refl 3, by norm_num,
    future_change_formula _ 3 3 2 8 (le_refl 3) (by norm_num) rfl rfl (by norm_num)⟩

set_option maxHeartbeats 2000000 in
/-- C4: on extrema prices [100, 101, 150] with threshold 0.025 = 1/40,
`aggregate_support_levels` puts 100 and 101 in cluster 1 and 150 alone in
cluster 3; on the chain [100, 102, 104] (each adjacent gap at most 2.5%
of the lower price) all three rows land in cluster 1 by transitive
merging, although the 100-to-104 gap is 4%. -/
theorem support_levels_clustering :
    ((aggregate_support_levels exdf4a (1/40)).map (·.level))
      = [some 1, some 1, some 3] ∧
    ((aggregate_support_levels exdf4b (1/40)).map (·.level))
      = [some 1, some 1, some 1] := by
  constructor <;>
    norm_num [aggregate_support_levels, exdf4a, exdf4b, uniqueFirst, insertionSortBy,
      insertIS, clusterIds, medianQ, List.range_succ]

/-- C5: for every aggregation group with positive total volume,
`basic_prep_ohlcv_df` satisfies `volume_usd = volume * price` exactly,
and `price` is the arithmetic mean of the volume-weighted average open
and the volume-weighted average close of the group's candles. -/
theorem aggregated_bar_invariants (g : List Candle) (hv : 0 < totalVolume g) :
    (basic_prep_ohlcv_df g).volume_usd
        = (basic_prep_ohlcv_df g).volume * (basic_prep_ohlcv_df g).price ∧
    (basic_prep_ohlcv_df g).price
        = (vwavg Candle.opn g + vwavg Candle.close g) / 2 :=
  ⟨rfl, rfl⟩

/-- C5 witness: the invariants hold for the concrete two-candle group. -/
theorem aggregated_bar_invariants_witness :
    0 < totalVolume exG ∧
    ((basic_prep_ohlcv_df exG).volume_usd
        = (basic_prep_ohlcv_df exG).volume * (basic_prep_ohlcv_df exG).price ∧
     (basic_prep_ohlcv_df exG).price
        = (vwavg Candle.opn exG + vwavg Candle.close exG) / 2) :=
  ⟨by norm_num [totalVolume, exG], aggregated_bar_invariants exG (by norm_num [totalVolume, exG])⟩

set_option maxHeartbeats 2000000 in
/-- C9: `aggregate_support_levels` keeps every input row but not the row
count: on `exdf9`, the day-1 rows each match the two day-1 cluster rows
and appear twice, while the day-2 row (no extremum that day for its
coin) appears exactly once with null level, price_level and
counter_level; the output has 5 rows for 3 input rows. -/
theorem support_levels_left_join :
    (aggregate_support_levels exdf9 (1/40)).length = 5 ∧
    ((aggregate_support_levels exdf9 (1/40)).filter (fun o => o.id == 1)).length = 2 ∧
    ((aggregate_support_levels exdf9 (1/40)).filter (fun o => o.id == 2)).length = 2 ∧
    ((aggregate_support_levels exdf9 (1/40)).filter (fun o => o.id == 3))
      = [ORow.mk 3 2 "A" 120 none none none] := by
  refine ⟨?_, ?_, ?_, ?_⟩ <;>
    norm_num [aggregate_support_levels, exdf9, uniqueFirst, insertionSortBy, insertIS,
      clusterIds, medianQ, List.range_succ]

/-- C10: the momentum score is the skip-NaN sum of the three pairwise
fractional changes - each NaN term contributes as 0 - and a row whose
three changes are all NaN scores `0`, not NaN. -/
theorem momentum_nan_robust (p1 p2 p3 p4 : FV) :
    calculate_momentum p1 p2 p3 p4 =
      FV.add (FV.add (nanToZero (fsubdiv p1 p2)) (nanToZero (fsubdiv p2 p3)))
        (nanToZero (fsubdiv p3 p4)) ∧
    (fsubdiv p1 p2 = FV.nan → fsubdiv p2 p3 = FV.nan → fsubdiv p3 p4 = FV.nan →
      calculate_momentum p1 p2 p3 p4 = FV.num 0) := by
  refine ⟨row_sum_three _ _ _, fun h1 h2 h3 => ?_⟩
  unfold calculate_momentum
  rw [h1, h2, h3]
  simp [row_sum, FV.isNan, List.filter, List.foldl]

/-- C10 witness: an all-NaN row (all four prices NaN) scores 0. -/
theorem momentum_nan_robust_witness :
    fsubdiv FV.nan FV.nan = FV.nan ∧
    calculate_momentum FV.nan FV.nan FV.nan FV.nan = FV.num 0 :=
  ⟨rfl, (momentum_nan_robust FV.nan FV.nan FV.nan FV.nan).2 rfl rfl rfl⟩

/-! ## Further helper lemmas (rolling windows) -/

theorem beq_nan_right (v : FV) : FV.beq v FV.nan = false := by
  cases v <;> rfl

theorem length_filterMap_lt {α β : Type} (f : α → Option β) (l : List α) (a : α)
    (ha : a ∈ l) (hfa : f a = none) : (l.filterMap f).length < l.length := by
  induction l with
  | nil => cases ha
  | cons b t ih =>
    rcases List.mem_cons.mp ha with hb | ht
    · subst hb
      rw [List.filterMap_cons, hfa]
      exact Nat.lt_succ_of_le (List.length_filterMap_le f t)
    · rw [List.filterMap_cons]
      cases hfb : f b with
      | none => exact Nat.lt_succ_of_lt (ih ht)
      | some c => simpa using ih ht

theorem rollCenteredAgg_boundary (agg : FV → FV → FV) (w k i : ℕ) (xs : List FV)
    (hw : w = 2 * k + 1) (hi : i < xs.length) (hb : i < k ∨ xs.length ≤ i + k) :
    (rollCenteredAgg agg w xs).getD i FV.nan = FV.nan := by
  rw [rollCenteredAgg]
  rw [getD_range_map _ _ i _ hi]
  have hoff : (w - 1) / 2 = k := by omega
  rw [hoff]
  set f : ℕ → Option FV := fun j =>
    if w ≤ i + k + 1 + j ∧ i + k + 1 + j - w < xs.length then
      (fun v => if FV.isNan v then none else some v) (xs.getD (i + k + 1 + j - w) FV.nan)
    else none with hf
  have hlt : ((List.range w).filterMap f).length < w := by
    rcases hb with hik | hik
    · have h0 : f 0 = none := by
        rw [hf]
        simp only []
        rw [if_neg]
        omega
      have := length_filterMap_lt f (List.range w) 0 (by simp [hw]) h0
      simpa using this
    · have h0 : f (w - 1) = none := by
        rw [hf]
        simp only []
        rw [if_neg]
        omega
      have := length_filterMap_lt f (List.range w) (w - 1) (by simp [hw]) h0
      simpa using this
  rw [if_neg (Nat.ne_of_lt hlt)]

theorem sum_eq_zero_of_nonneg (l : List ℚ) (h : ∀ x ∈ l, 0 ≤ x) (hs : l.sum = 0) :
    ∀ x ∈ l, x = 0 := by
  induction l with
  | nil => intro x hx; cases hx
  | cons a t ih =>
    have ha : 0 ≤ a := h a (List.mem_cons_self a t)
    have hts : 0 ≤ t.sum := List.sum_nonneg (fun x hx => h x (List.mem_cons_of_mem a hx))
    rw [List.sum_cons] at hs
    have ha0 : a = 0 := by linarith
    have ht0 : t.sum = 0 := by linarith
    intro x hx
    rcases List.mem_cons.mp hx with hxa | hxt
    · rw [hxa, ha0]
    · exact ih (fun y hy => h y (List.mem_cons_of_mem a hy)) ht0 x hxt

theorem windowAt_length (w i : ℕ) (xs : List ℚ) (hwi : w ≤ i + 1) (hi : i < xs.length) :
    (windowAt w i xs).length = w := by
  simp only [windowAt, List.length_drop, List.length_take]
  omega

theorem windowAt_mem (w i j : ℕ) (xs : List ℚ) (hi : i < xs.length)
    (hj1 : i + 1 - w ≤ j) (hj2 : j ≤ i) : xs.getD j 0 ∈ windowAt w i xs := by
  have hjn : j < xs.length := lt_of_le_of_lt hj2 hi
  have hq : (windowAt w i xs)[j - (i + 1 - w)]? = some (xs.getD j 0) := by
    simp only [windowAt]
    rw [List.getElem?_drop]
    have hlt : i + 1 - w + (j - (i + 1 - w)) < i + 1 := by omega
    rw [List.getElem?_take_of_lt hlt]
    have hj' : i + 1 - w + (j - (i + 1 - w)) = j := by omega
    rw [hj', List.getElem?_eq_getElem hjn, List.getD_eq_getElem xs 0 hjn]
  exact List.getElem?_mem hq

theorem sampleVar_zero_mean_zero (l : List ℚ) (hn : 2 ≤ l.length)
    (hmean : l.sum = 0) (hvar : sampleVar l = 0) : ∀ x ∈ l, x = 0 := by
  intro x hx
  have hnum : (l.map (fun y => (y - l.sum / (l.length : ℚ)) ^ 2)).sum = 0 := by
    have hv2 : (l.map (fun y => (y - l.sum / (l.length : ℚ)) ^ 2)).sum = 0 ∨
        l.length - 1 = 0 := by
      simpa [sampleVar] using hvar
    rcases hv2 with h | h
    · exact h
    · omega
  have hsq := sum_eq_zero_of_nonneg _
    (fun y hy => by
      rcases List.mem_map.mp hy with ⟨z, _, rfl⟩
      exact sq_nonneg _)
    hnum ((x - l.sum / (l.length : ℚ)) ^ 2) (List.mem_map_of_mem _ hx)
  have hx0 : x - l.sum / (l.length : ℚ) = 0 := (pow_eq_zero_iff (by norm_num)).mp hsq
  rw [hmean] at hx0
  simpa using hx0

/-- C6 counterexample: with a window of 6 all-zero volumes, row 5 has
full history (6 ≤ 5 + 1) and a non-null rolling average of 0, yet the
volatility cell is NaN: the rolling std is 0 and 0/0 is NaN, so a later
row of the claim's pattern is null. -/
theorem volatility_zero_window_null :
    6 ≤ 5 + 1 ∧
    (avg_volume 6 (List.replicate 6 (0:ℚ))).getD 5 FV.nan = FV.num 0 ∧
    (volatility_volume 6 (List.replicate 6 (0:ℚ))).getD 5 RV.inf = RV.nan := by
  refine ⟨by norm_num, ?_, ?_⟩
  · norm_num [avg_volume, rollingMeanQ, windowAt, List.range_succ, List.replicate]
  · norm_num [volatility_volume, rollingStdQ, rollingMeanQ, sampleVar, windowAt, rdiv,
      List.range_succ, List.replicate]

/-- C6 amended: for every coin volume series, every configured volume
window w and every row i, the rolling average and volatility cells are
NaN on the first w-1 rows; from row w-1 on, the rolling average is
non-null always, and the volatility is non-null provided the trailing
window is not entirely zero (an all-zero window makes it 0/0 = NaN, see
the counterexample).  The embedding is total, so insufficient history
yields NaN cells and is never fatal. -/
theorem rolling_null_pattern (vols : List ℚ) (w i : ℕ)
    (hw : w ∈ [6, 12, 24, 48, 72, 168, 336]) (hi : i < vols.length) :
    (i + 1 < w → (avg_volume w vols).getD i (FV.num 0) = FV.nan ∧
      (volatility_volume w vols).getD i RV.inf = RV.nan) ∧
    (w ≤ i + 1 → (avg_volume w vols).getD i FV.nan ≠ FV.nan ∧
      ((∃ j, i + 1 - w ≤ j ∧ j ≤ i ∧ vols.getD j 0 ≠ 0) →
        (volatility_volume w vols).getD i RV.nan ≠ RV.nan)) := by
  have hw2 : 2 ≤ w := by fin_cases hw <;> norm_num
  constructor
  · intro hlt
    constructor
    · rw [avg_volume, rollingMeanQ, getD_range_map _ _ i _ hi, if_pos hlt]
    · rw [volatility_volume, getD_range_map _ _ i _ hi,
        rollingStdQ, getD_range_map _ _ i _ hi, if_pos (Or.inl hlt)]
      cases hm : (rollingMeanQ w vols).getD i FV.nan <;> rfl
  · intro hge
    have hwl : (windowAt w i vols).length = w := windowAt_length w i vols hge hi
    constructor
    · rw [avg_volume, rollingMeanQ, getD_range_map _ _ i _ hi, if_neg (by omega)]
      simp
    · intro hex
      obtain ⟨j, hj1, hj2, hjnz⟩ := hex
      rw [volatility_volume, getD_range_map _ _ i _ hi,
        rollingStdQ, getD_range_map _ _ i _ hi, if_neg (by omega),
        rollingMeanQ, getD_range_map _ _ i _ hi, if_neg (by omega)]
      rw [rdiv]
      by_cases hm : (windowAt w i vols).sum / (w : ℚ) = 0
      · rw [if_pos hm]
        have hsum : (windowAt w i vols).sum = 0 := by
          rcases div_eq_zero_iff.mp hm with h | h
          · exact h
          · exact absurd h (Nat.cast_ne_zero.mpr (by omega))
        have hvarnz : sampleVar (windowAt w i vols) ≠ 0 := by
          intro hv0
          have hall := sampleVar_zero_mean_zero _ (by omega) hsum hv0
          exact hjnz (hall _ (windowAt_mem w i j vols hi hj1 hj2))
        rw [if_neg hvarnz]
        by_cases hvp : 0 < sampleVar (windowAt w i vols)
        · rw [if_pos hvp]
          simp
        · rw [if_neg hvp]
          simp
      · rw [if_neg hm]
        simp

/-- C6 witness: with six volumes of 1 and window 6, row 5 has non-null
rolling average and volatility. -/
theorem rolling_null_pattern_witness :
    (6:ℕ) ∈ [6, 12, 24, 48, 72, 168, 336] ∧ 5 < ([1, 1, 1, 1, 1, 1] : List ℚ).length ∧
    (avg_volume 6 [1, 1, 1, 1, 1, 1]).getD 5 FV.nan ≠ FV.nan ∧
    (volatility_volume 6 [1, 1, 1, 1, 1, 1]).getD 5 RV.nan ≠ RV.nan :=
  ⟨by decide, by decide,
    ((rolling_null_pattern [1, 1, 1, 1, 1, 1] 6 5 (by decide) (by decide)).2
      (by decide)).1,
    ((rolling_null_pattern [1, 1, 1, 1, 1, 1] 6 5 (by decide) (by decide)).2
      (by decide)).2 ⟨5, by decide, by decide, by norm_num⟩⟩

/-- C7: in the dual-column extrema detector, every row without a full
centered neighborhood - the first and last (w-1)/2 rows of the coin, for
an odd window w = 2k+1 - has local_max = 0 and local_min = 0: the
centered rolling aggregate is NaN there, and the equality test against
NaN is false, never true and never a NaN treated as set. -/
theorem local_min_max2_boundary (low high : List FV) (w k i : ℕ)
    (hw : w = 2 * k + 1) (hlen : low.length = high.length) (hi : i < high.length)
    (hb : i < k ∨ high.length ≤ i + k) :
    (define_local_min_max2 low high w).1.getD i 9 = 0 ∧
    (define_local_min_max2 low high w).2.getD i 9 = 0 := by
  constructor
  · show ((List.range high.length).map _).getD i 9 = 0
    rw [getD_range_map _ _ i _ hi]
    rw [rollCenteredAgg_boundary FV.fmax w k i high hw hi hb, beq_nan_right]
    rfl
  · show ((List.range low.length).map _).getD i 9 = 0
    rw [getD_range_map _ _ i _ (hlen ▸ hi)]
    rw [rollCenteredAgg_boundary FV.fmin w k i low hw (hlen ▸ hi) (by omega),
      beq_nan_right]
    rfl

/-- C7 witness: with window 3 (k = 1) on a 4-row coin, row 0 has both
flags 0. -/
theorem local_min_max2_boundary_witness :
    (3:ℕ) = 2 * 1 + 1 ∧ (0:ℕ) < 1 ∧
    (define_local_min_max2 [FV.num 1, FV.num 2, FV.num 3, FV.num 4]
      [FV.num 5, FV.num 6, FV.num 7, FV.num 8] 3).1.getD 0 9 = 0 ∧
    (define_local_min_max2 [FV.num 1, FV.num 2, FV.num 3, FV.num 4]
      [FV.num 5, FV.num 6, FV.num 7, FV.num 8] 3).2.getD 0 9 = 0 :=
  ⟨rfl, by decide,
    (local_min_max2_boundary [FV.num 1, FV.num 2, FV.num 3, FV.num 4]
      [FV.num 5, FV.num 6, FV.num 7, FV.num 8] 3 1 0 rfl rfl (by decide)
      (Or.inl (by decide))).1,
    (local_min_max2_boundary [FV.num 1, FV.num 2, FV.num 3, FV.num 4]
      [FV.num 5, FV.num 6, FV.num 7, FV.num 8] 3 1 0 rfl rfl (by decide)
      (Or.inl (by decide))).2⟩

/-! ## Helper lemmas for the weighted-average frame effects -/

theorem rlookup_rowSet_ne (m name : String) (hne : m ≠ name) (v : FV) (r : DRow) :
    rlookup m (rowSet name v r) = rlookup m r := by
  induction r with
  | nil =>
    show rlookup m [(name, v)] = none
    simp [rlookup, Ne.symm hne]
  | cons p t ih =>
    by_cases hp : p.1 = name
    · show rlookup m (if p.1 = name then (name, v) :: t else p :: rowSet name v t) = _
      rw [if_pos hp]
      show (if name = m then some v else rlookup m t) = _
      rw [if_neg (Ne.symm hne)]
      show _ = (if p.1 = m then some p.2 else rlookup m t)
      rw [if_neg (hp ▸ (Ne.symm hne) : p.1 ≠ m)]
    · show rlookup m (if p.1 = name then (name, v) :: t else p :: rowSet name v t) = _
      rw [if_neg hp]
      show (if p.1 = m then some p.2 else rlookup m (rowSet name v t)) = _
      rw [ih]
      rfl

theorem rkeys_rowSet_notMem (name : String) (v : FV) (r : DRow) (h : name ∉ rkeys r) :
    rkeys (rowSet name v r) = rkeys r ++ [name] := by
  induction r with
  | nil => rfl
  | cons p t ih =>
    have hp : p.1 ≠ name := by
      intro he
      exact h (by simp [rkeys, he])
    have hnt : name ∉ rkeys t := by
      intro ht
      exact h (by simp [rkeys] at ht ⊢; exact Or.inr ht)
    show rkeys (if p.1 = name then (name, v) :: t else p :: rowSet name v t) = _
    rw [if_neg hp]
    show p.1 :: rkeys (rowSet name v t) = (p.1 :: rkeys t) ++ [name]
    rw [ih hnt]
    rfl

theorem rlookup_rowDropAll_ne (m : String) (names : List String) (hm : m ∉ names)
    (r : DRow) : rlookup m (rowDropAll names r) = rlookup m r := by
  induction r with
  | nil => rfl
  | cons p t ih =>
    by_cases hp : p.1 ∈ names
    · have hpm : p.1 ≠ m := fun he => hm (he ▸ hp)
      show rlookup m (List.filter _ (p :: t)) = _
      rw [List.filter_cons, if_neg (by simp [hp])]
      show rlookup m (rowDropAll names t) = _
      rw [ih]
      show _ = (if p.1 = m then some p.2 else rlookup m t)
      rw [if_neg hpm]
    · show rlookup m (List.filter _ (p :: t)) = _
      rw [List.filter_cons, if_pos (by simp [hp])]
      show (if p.1 = m then some p.2 else rlookup m (rowDropAll names t)) = _
      rw [ih]
      rfl

theorem rkeys_rowDropAll (names : List String) (r : DRow) :
    rkeys (rowDropAll names r) = (rkeys r).filter (fun s => decide (s ∉ names)) := by
  induction r with
  | nil => rfl
  | cons p t ih =>
    show rkeys (List.filter _ (p :: t)) = List.filter _ (p.1 :: rkeys t)
    rw [List.filter_cons, List.filter_cons]
    by_cases hp : p.1 ∈ names
    · rw [if_neg (by simp [hp]), if_neg (by simp [hp])]
      exact ih
    · rw [if_pos (by simp [hp]), if_pos (by simp [hp])]
      show p.1 :: rkeys (rowDropAll names t) = _
      rw [ih]

theorem map_zipWith_eq {α β γ : Type} (f : α → β → α) (g : α → γ) (as : List α)
    (bs : List β) (hlen : as.length ≤ bs.length) (h : ∀ a b, g (f a b) = g a) :
    (List.zipWith f as bs).map g = as.map g := by
  induction as generalizing bs with
  | nil => simp
  | cons a t ih =>
    cases bs with
    | nil => simp at hlen
    | cons b bt =>
      simp only [List.zipWith_cons_cons, List.map_cons, h]
      rw [ih bt (by simpa using hlen)]

theorem mem_zipWith {α β γ : Type} {f : α → β → γ} {x : γ} {as : List α} {bs : List β}
    (hx : x ∈ List.zipWith f as bs) : ∃ a b, a ∈ as ∧ b ∈ bs ∧ x = f a b := by
  induction as generalizing bs with
  | nil => simp at hx
  | cons a t ih =>
    cases bs with
    | nil => simp at hx
    | cons b bt =>
      rcases List.mem_cons.mp hx with h | h
      · exact ⟨a, b, List.mem_cons_self _ _, List.mem_cons_self _ _, h⟩
      · obtain ⟨a', b', ha, hb, he⟩ := ih h
        exact ⟨a', b', List.mem_cons_of_mem _ ha, List.mem_cons_of_mem _ hb, he⟩

theorem sortRows_length (df : DF) (key : String) : (sortRows df key).length = df.length :=
  (insertionSortBy_perm _ df).length_eq

theorem getCol_length (df : DF) (name : String) : (getCol df name).length = df.length := by
  simp [getCol]

theorem groupTransform_length (df : DF) (gcol vcol : String) (f : List FV → List FV) :
    (groupTransform df gcol vcol f).length = df.length := by
  simp [groupTransform]

theorem setCol_length (df : DF) (name : String) (vals : List FV)
    (h : df.length ≤ vals.length) : (setCol df name vals).length = df.length := by
  simp only [setCol, List.length_zipWith]
  omega

theorem setCol_map_pair (df : DF) (name : String) (vals : List FV) (cp : String)
    (hlen : df.length ≤ vals.length) (h1 : cp ≠ name) (h2 : "volume" ≠ name) :
    (setCol df name vals).map (fun r => (rlookup cp r, rlookup "volume" r))
      = df.map (fun r => (rlookup cp r, rlookup "volume" r)) :=
  map_zipWith_eq _ _ df vals hlen (fun a b => by
    rw [rlookup_rowSet_ne cp name h1, rlookup_rowSet_ne "volume" name h2])

theorem dropCols_map_pair (X : DF) (names : List String) (cp : String)
    (h1 : cp ∉ names) (h2 : "volume" ∉ names) :
    (dropCols X names).map (fun r => (rlookup cp r, rlookup "volume" r))
      = X.map (fun r => (rlookup cp r, rlookup "volume" r)) := by
  rw [dropCols, List.map_map]
  exact List.map_congr_left (fun a _ => by
    simp only [Function.comp]
    rw [rlookup_rowDropAll_ne cp names h1, rlookup_rowDropAll_ne "volume" names h2])

theorem mem_setCol {df : DF} {name : String} {vals : List FV} {r : DRow}
    (hr : r ∈ setCol df name vals) : ∃ a ∈ df, ∃ b, r = rowSet name b a := by
  obtain ⟨a, b, ha, hb, he⟩ := mem_zipWith hr
  exact ⟨a, ha, b, he⟩

theorem keys_setCol_all {df : DF} {name : String} {vals : List FV} {K : List String}
    (hall : ∀ r ∈ df, rkeys r = K) (hnot : name ∉ K) :
    ∀ r ∈ setCol df name vals, rkeys r = K ++ [name] := by
  intro r hr
  obtain ⟨a, ha, b, rfl⟩ := mem_setCol hr
  rw [rkeys_rowSet_notMem name b a (by rw [hall a ha]; exact hnot), hall a ha]

theorem weighted_average_map_pair (df : DF) (cp cn : String) (w : ℕ) (cg cs : String)
    (hp1 : cp ∉ scratchCols) (hpn : cp ≠ cn ++ toString w)
    (hvn : "volume" ≠ cn ++ toString w) :
    ((weighted_average df cp cn w cg cs).map
      (fun r => (rlookup cp r, rlookup "volume" r))).Perm
      (df.map (fun r => (rlookup cp r, rlookup "volume" r))) := by
  have hsc3 : cp ≠ "weighted_price" ∧ cp ≠ "nominator" ∧ cp ≠ "denominator" := by
    simpa [scratchCols] using hp1
  obtain ⟨hcw, hcn, hcd⟩ := hsc3
  simp only [weighted_average]
  set nm := cn ++ toString w with hnm
  set v1 := List.zipWith FV.mul (getCol df cp) (getCol df "volume") with hv1
  set D1 := setCol df "weighted_price" v1 with hD1
  set D2 := sortRows D1 cs with hD2
  set v3 := groupTransform D2 cg "weighted_price" (rolling_sum_min1 w) with hv3
  set D3 := setCol D2 "nominator" v3 with hD3
  set v4 := groupTransform D3 cg "volume" (rolling_sum_min1 w) with hv4
  set D4 := setCol D3 "denominator" v4 with hD4
  set v5 := List.zipWith FV.div (getCol D4 "nominator") (getCol D4 "denominator") with hv5
  set D5 := setCol D4 nm v5 with hD5
  have lv1 : v1.length = df.length := by
    rw [hv1, List.length_zipWith, getCol_length, getCol_length]
    omega
  have lD1 : D1.length = df.length := by
    rw [hD1, setCol_length df _ v1 (le_of_eq lv1.symm)]
  have lD2 : D2.length = df.length := by rw [hD2, sortRows_length, lD1]
  have lv3 : v3.length = df.length := by rw [hv3, groupTransform_length, lD2]
  have lD3 : D3.length = df.length := by
    rw [hD3, setCol_length D2 _ v3 (by omega), lD2]
  have lv4 : v4.length = df.length := by rw [hv4, groupTransform_length, lD3]
  have lD4 : D4.length = df.length := by
    rw [hD4, setCol_length D3 _ v4 (by omega), lD3]
  have lv5 : v5.length = df.length := by
    rw [hv5, List.length_zipWith, getCol_length, getCol_length]
    omega
  have s5 : D5.map (fun r => (rlookup cp r, rlookup "volume" r))
      = D4.map (fun r => (rlookup cp r, rlookup "volume" r)) := by
    rw [hD5]
    exact setCol_map_pair D4 nm v5 cp (by omega) hpn hvn
  have s4 : D4.map (fun r => (rlookup cp r, rlookup "volume" r))
      = D3.map (fun r => (rlookup cp r, rlookup "volume" r)) := by
    rw [hD4]
    exact setCol_map_pair D3 "denominator" v4 cp (by omega) hcd (by decide)
  have s3 : D3.map (fun r => (rlookup cp r, rlookup "volume" r))
      = D2.map (fun r => (rlookup cp r, rlookup "volume" r)) := by
    rw [hD3]
    exact setCol_map_pair D2 "nominator" v3 cp (by omega) hcn (by decide)
  have s2 : (D2.map (fun r => (rlookup cp r, rlookup "volume" r))).Perm
      (D1.map (fun r => (rlookup cp r, rlookup "volume" r))) := by
    rw [hD2]
    exact (insertionSortBy_perm _ D1).map _
  have s1 : D1.map (fun r => (rlookup cp r, rlookup "volume" r))
      = df.map (fun r => (rlookup cp r, rlookup "volume" r)) := by
    rw [hD1]
    exact setCol_map_pair df "weighted_price" v1 cp (le_of_eq lv1.symm) hcw (by decide)
  rw [dropCols_map_pair D5 scratchCols cp hp1 (by decide), s5, s4, s3]
  rw [s1] at s2
  exact s2


theorem weighted_average_no_scratch (df : DF) (cp cn : String) (w : ℕ) (cg cs : String) :
    ∀ r ∈ weighted_average df cp cn w cg cs, ∀ s ∈ scratchCols, s ∉ rkeys r := by
  intro r hr s hs hmem
  simp only [weighted_average] at hr
  rw [dropCols] at hr
  obtain ⟨r', _, rfl⟩ := List.mem_map.mp hr
  rw [rkeys_rowDropAll] at hmem
  exact of_decide_eq_true (List.mem_filter.mp hmem).2 hs

theorem weighted_average_keys (df : DF) (cp cn : String) (w : ℕ) (cg cs : String)
    (cols : List String)
    (hcols : ∀ r ∈ df, rkeys r = cols)
    (hndf : cn ++ toString w ∉ cols)
    (hn1 : cn ++ toString w ∉ scratchCols)
    (hsc : ∀ c ∈ cols, c ∉ scratchCols) :
    ∀ r ∈ weighted_average df cp cn w cg cs,
      rkeys r = cols ++ [cn ++ toString w] := by
  have hwp : "weighted_price" ∉ cols := fun h => hsc _ h (by simp [scratchCols])
  have hnom : "nominator" ∉ cols := fun h => hsc _ h (by simp [scratchCols])
  have hden : "denominator" ∉ cols := fun h => hsc _ h (by simp [scratchCols])
  have hnm3 : cn ++ toString w ≠ "weighted_price" ∧ cn ++ toString w ≠ "nominator" ∧
      cn ++ toString w ≠ "denominator" := by
    simpa [scratchCols] using hn1
  obtain ⟨hnw, hnn, hnd⟩ := hnm3
  intro r hr
  simp only [weighted_average] at hr
  set nm := cn ++ toString w with hnm
  set v1 := List.zipWith FV.mul (getCol df cp) (getCol df "volume") with hv1
  set D1 := setCol df "weighted_price" v1 with hD1
  set D2 := sortRows D1 cs with hD2
  set v3 := groupTransform D2 cg "weighted_price" (rolling_sum_min1 w) with hv3
  set D3 := setCol D2 "nominator" v3 with hD3
  set v4 := groupTransform D3 cg "volume" (rolling_sum_min1 w) with hv4
  set D4 := setCol D3 "denominator" v4 with hD4
  set v5 := List.zipWith FV.div (getCol D4 "nominator") (getCol D4 "denominator") with hv5
  set D5 := setCol D4 nm v5 with hD5
  have k1 : ∀ r ∈ D1, rkeys r = cols ++ ["weighted_price"] := by
    rw [hD1]
    exact keys_setCol_all hcols hwp
  have k2 : ∀ r ∈ D2, rkeys r = cols ++ ["weighted_price"] := by
    intro r hr2
    rw [hD2] at hr2
    exact k1 r ((insertionSortBy_perm _ D1).subset hr2)
  have k3 : ∀ r ∈ D3, rkeys r = (cols ++ ["weighted_price"]) ++ ["nominator"] := by
    rw [hD3]
    exact keys_setCol_all k2 (by
      simp only [List.mem_append, List.mem_singleton]
      rintro (h | h)
      · exact hnom h
      · exact absurd h (by decide))
  have k4 : ∀ r ∈ D4,
      rkeys r = ((cols ++ ["weighted_price"]) ++ ["nominator"]) ++ ["denominator"] := by
    rw [hD4]
    exact keys_setCol_all k3 (by
      simp only [List.mem_append, List.mem_singleton]
      rintro ((h | h) | h)
      · exact hden h
      · exact absurd h (by decide)
      · exact absurd h (by decide))
  have k5 : ∀ r ∈ D5,
      rkeys r = (((cols ++ ["weighted_price"]) ++ ["nominator"]) ++ ["denominator"])
        ++ [nm] := by
    rw [hD5]
    exact keys_setCol_all k4 (by
      simp only [List.mem_append, List.mem_singleton]
      rintro (((h | h) | h) | h)
      · exact hndf h
      · exact hnw h
      · exact hnn h
      · exact hnd h)
  rw [dropCols] at hr
  obtain ⟨r', hr', rfl⟩ := List.mem_map.mp hr
  rw [rkeys_rowDropAll, k5 r' hr']
  rw [List.filter_append, List.filter_append, List.filter_append, List.filter_append]
  have fc : cols.filter (fun s => decide (s ∉ scratchCols)) = cols :=
    List.filter_eq_self.mpr (fun c hc => decide_eq_true (hsc c hc))
  have fnm : ([nm] : List String).filter (fun s => decide (s ∉ scratchCols)) = [nm] := by
    simp [hn1]
  rw [fc, fnm]
  have fw : (["weighted_price"] : List String).filter
      (fun s => decide (s ∉ scratchCols)) = [] := by decide
  have fn : (["nominator"] : List String).filter
      (fun s => decide (s ∉ scratchCols)) = [] := by decide
  have fd : (["denominator"] : List String).filter
      (fun s => decide (s ∉ scratchCols)) = [] := by decide
  rw [fw, fn, fd]
  simp

/-- C8: `weighted_average` leaves the caller's price and volume cells
untouched (the output rows' (price, volume) pairs are a permutation -
induced by the time sort - of the input rows'), drops every scratch
column it creates ('weighted_price', 'nominator', 'denominator'), and
adds exactly one column, named `colname_new ++ toString window_length`.
Preconditions: the frame's rows share the column list `cols`, and the
price column, the new name and `cols` stay clear of the scratch names
and of each other. -/
theorem weighted_average_frame_effect (df : DF) (cp cn : String) (w : ℕ)
    (cg cs : String) (cols : List String)
    (hcols : ∀ r ∈ df, rkeys r = cols)
    (hp1 : cp ∉ scratchCols)
    (hpn : cp ≠ cn ++ toString w)
    (hvn : "volume" ≠ cn ++ toString w)
    (hndf : cn ++ toString w ∉ cols)
    (hn1 : cn ++ toString w ∉ scratchCols)
    (hsc : ∀ c ∈ cols, c ∉ scratchCols) :
    ((weighted_average df cp cn w cg cs).map
        (fun r => (rlookup cp r, rlookup "volume" r))).Perm
      (df.map (fun r => (rlookup cp r, rlookup "volume" r))) ∧
    (∀ r ∈ weighted_average df cp cn w cg cs, ∀ s ∈ scratchCols, s ∉ rkeys r) ∧
    (∀ r ∈ weighted_average df cp cn w cg cs,
      rkeys r = cols ++ [cn ++ toString w]) :=
  ⟨weighted_average_map_pair df cp cn w cg cs hp1 hpn hvn,
   weighted_average_no_scratch df cp cn w cg cs,
   weighted_average_keys df cp cn w cg cs cols hcols hndf hn1 hsc⟩

/-- C8 witness: the frame effects on the concrete two-row frame, with
the output column `avg_price_5`. -/
theorem weighted_average_frame_effect_witness :
    (∀ r ∈ exdf8, rkeys r = excols8) ∧
    "price" ∉ scratchCols ∧
    "price" ≠ "avg_price_" ++ toString 5 ∧
    "volume" ≠ "avg_price_" ++ toString 5 ∧
    "avg_price_" ++ toString 5 ∉ excols8 ∧
    "avg_price_" ++ toString 5 ∉ scratchCols ∧
    (∀ c ∈ excols8, c ∉ scratchCols) ∧
    (((weighted_average exdf8 "price" "avg_price_" 5 "coin" "timestamp").map
        (fun r => (rlookup "price" r, rlookup "volume" r))).Perm
      (exdf8.map (fun r => (rlookup "price" r, rlookup "volume" r))) ∧
     (∀ r ∈ weighted_average exdf8 "price" "avg_price_" 5 "coin" "timestamp",
        ∀ s ∈ scratchCols, s ∉ rkeys r) ∧
     (∀ r ∈ weighted_average exdf8 "price" "avg_price_" 5 "coin" "timestamp",
        rkeys r = excols8 ++ ["avg_price_" ++ toString 5])) :=
  ⟨by decide, by decide, by decide, by decide, by decide, by decide, by decide,
   weighted_average_frame_effect exdf8 "price" "avg_price_" 5 "coin" "timestamp"
     excols8 (by decide) (by decide) (by decide) (by decide) (by decide) (by decide)
     (by decide)⟩

end Crypto
